import Mathlib

/-!
Verification of the rust_03 encrypted-chat program: Diffie-Hellman handshake
over `mod_pow`, an LCG keystream generator, and the XOR stream-cipher session
loops of `run_server` / `run_client`.

Machine integers are embedded as `Nat` with explicit reductions: Rust `u64`
multiplication wraps modulo `2^64` (release semantics), so every product in
`mod_pow` carries an explicit `% 2 ^ 64`; a separate checked variant
`mod_pow_checked` reports whether any intermediate product exceeds 64 bits.
The `while exp > 0` loop is embedded with an explicit fuel of 64 iterations,
enough for every 64-bit exponent since `exp` halves each round.
-/

/-- DH modulus `P: u64 = 0xD87FA3E291B4C7F3` from the source. -/
def P : Nat := 0xD87FA3E291B4C7F3

/-- DH generator `G: u64 = 2` from the source. -/
def G : Nat := 2

/-- Loop body of `fn mod_pow`: while `exp > 0`, multiply the accumulator by
`base` when the low exponent bit is set, halve the exponent, square the base.
Each `u64` product wraps modulo `2 ^ 64` before the `% modulus` reduction.
`fuel` bounds the iteration count; 64 suffices for any 64-bit exponent. -/
def modPowGo (modulus : Nat) : Nat → Nat → Nat → Nat → Nat
  | 0, _, _, result => result
  | fuel + 1, exp, base, result =>
    if exp = 0 then result
    else
      modPowGo modulus fuel (exp / 2)
        (base * base % 2 ^ 64 % modulus)
        (if exp % 2 = 1 then result * base % 2 ^ 64 % modulus else result)

/-- `fn mod_pow(mut base: u64, mut exp: u64, modulus: u64) -> u64`:
returns 0 when `modulus == 1`, otherwise square-and-multiply with all
products computed in wrapping 64-bit arithmetic. -/
def mod_pow (base exp modulus : Nat) : Nat :=
  if modulus = 1 then 0 else modPowGo modulus 64 exp (base % modulus) 1

/-- Checked-arithmetic variant of the `mod_pow` loop: `none` as soon as an
intermediate `u64` product `base*base` or `result*base` exceeds `2^64 - 1`. -/
def modPowCheckedGo (modulus : Nat) : Nat → Nat → Nat → Nat → Option Nat
  | 0, _, _, result => some result
  | fuel + 1, exp, base, result =>
    if exp = 0 then some result
    else if base * base < 2 ^ 64 ∧ (exp % 2 = 1 → result * base < 2 ^ 64) then
      modPowCheckedGo modulus fuel (exp / 2)
        (base * base % modulus)
        (if exp % 2 = 1 then result * base % modulus else result)
    else none

/-- `mod_pow` under overflow-checked semantics: `some r` when no intermediate
product overflows 64 bits (and then `r` is the wrapping result too). -/
def mod_pow_checked (base exp modulus : Nat) : Option Nat :=
  if modulus = 1 then some 0 else modPowCheckedGo modulus 64 exp (base % modulus) 1

/-- `struct LCG { a: u32, c: u32, m: u64, next: u32 }`. -/
structure LCG where
  a : Nat
  c : Nat
  m : Nat
  next : Nat
  deriving Repr, DecidableEq

/-- `LCG::new(seed)`: a = 1103515245, c = 12345, m = 0x100000000, next = seed. -/
def LCG.new (seed : Nat) : LCG :=
  { a := 1103515245, c := 12345, m := 0x100000000, next := seed }

/-- `LCG::next_byte`: `self.next = ((a as u64 * next as u64 + c as u64) % m) as u32`,
returns `(self.next >> 24) as u8`.  The products are taken in `u64`, which cannot
overflow for 32-bit `a`, `next`, `c`; the `as u32` and `as u8` casts truncate. -/
def LCG.next_byte (g : LCG) : Nat × LCG :=
  let n := (g.a * g.next + g.c) % g.m % 2 ^ 32
  ((n >>> 24) % 2 ^ 8, { g with next := n })

/-- The encryption loop of a send turn:
`for idx in 0..msg.len() { ciphertext[idx] = msg[idx] ^ keystream.next_byte(); }`. -/
def encryptGo (g : LCG) : List Nat → List Nat × LCG
  | [] => ([], g)
  | m :: ms =>
    let k := g.next_byte
    let r := encryptGo k.2 ms
    ((m ^^^ k.1) :: r.1, r.2)

/-- The decryption loop of a receive turn:
`for idx in 0..n { plaintext[idx] = buffer[idx] ^ keystream.next_byte(); }`. -/
def decryptGo (g : LCG) : List Nat → List Nat × LCG
  | [] => ([], g)
  | c :: cs =>
    let k := g.next_byte
    let r := decryptGo k.2 cs
    ((c ^^^ k.1) :: r.1, r.2)

/-- The key-display loop that follows each encrypt/decrypt loop:
`for idx in 0..len { print!("{:02X} ", keystream.next_byte()); }` —
it consumes one generator byte per message byte and only prints it. -/
def keyDisplay (g : LCG) : Nat → List Nat × LCG
  | 0 => ([], g)
  | n + 1 =>
    let k := g.next_byte
    let r := keyDisplay k.2 n
    (k.1 :: r.1, r.2)

/-- One generator advance, discarding the produced byte. -/
def LCG.step (g : LCG) : LCG := (g.next_byte).2

/-- `n` successive generator advances. -/
def LCG.steps (g : LCG) : Nat → LCG
  | 0 => g
  | n + 1 => g.step.steps n

/-- A full non-empty send turn: encrypt `msg` (consuming `msg.length` keystream
bytes), then the key-display loop (consuming `msg.length` more), then the
transport write of the ciphertext. -/
def sendTurn (g : LCG) (msg : List Nat) : List Nat × LCG :=
  let e := encryptGo g msg
  let d := keyDisplay e.2 msg.length
  (e.1, d.2)

/-- A full `n`-byte receive turn: decrypt the `n` buffered bytes (consuming
`n` keystream bytes), then the key-display loop (consuming `n` more). -/
def recvTurn (g : LCG) (buf : List Nat) : List Nat × LCG :=
  let p := decryptGo g buf
  let d := keyDisplay p.2 buf.length
  (p.1, d.2)

/-! ## Keystream and session-loop lemmas -/

theorem LCG.steps_add (g : LCG) (a b : Nat) : g.steps (a + b) = (g.steps a).steps b := by
  induction a generalizing g with
  | zero => simp [LCG.steps]
  | succ n ih =>
    have h : n + 1 + b = (n + b) + 1 := by omega
    rw [h]
    show g.step.steps (n + b) = ((g.step).steps n).steps b
    exact ih g.step

theorem keyDisplay_state (g : LCG) (n : Nat) : (keyDisplay g n).2 = g.steps n := by
  induction n generalizing g with
  | zero => rfl
  | succ k ih => simp [keyDisplay, LCG.steps, LCG.step, ih]

theorem encryptGo_eq (g : LCG) (m : List Nat) :
    encryptGo g m = (List.zipWith (fun a b => a ^^^ b) m ((keyDisplay g m.length).1),
      g.steps m.length) := by
  induction m generalizing g with
  | nil => rfl
  | cons x xs ih => simp [encryptGo, keyDisplay, LCG.steps, LCG.step, ih]

theorem decryptGo_eq (g : LCG) (c : List Nat) :
    decryptGo g c = (List.zipWith (fun a b => a ^^^ b) c ((keyDisplay g c.length).1),
      g.steps c.length) := by
  induction c generalizing g with
  | nil => rfl
  | cons x xs ih => simp [decryptGo, keyDisplay, LCG.steps, LCG.step, ih]

theorem decryptGo_encryptGo (g : LCG) (m : List Nat) :
    (decryptGo g ((encryptGo g m).1)).1 = m := by
  induction m generalizing g with
  | nil => rfl
  | cons x xs ih => simp [encryptGo, decryptGo, ih, Nat.xor_cancel_right]

theorem encryptGo_length (g : LCG) (m : List Nat) : ((encryptGo g m).1).length = m.length := by
  induction m generalizing g with
  | nil => rfl
  | cons x xs ih => simp [encryptGo, ih]

theorem decryptGo_length (g : LCG) (c : List Nat) : ((decryptGo g c).1).length = c.length := by
  induction c generalizing g with
  | nil => rfl
  | cons x xs ih => simp [decryptGo, ih]

/-! ## Claim theorems for the keystream / session loops -/

/-- C9: `mod_pow(base, exp, 1) = 0` for all base and exponent: the function
returns 0 unconditionally when the modulus is 1. -/
theorem mod_pow_modulus_one (base exp : Nat) : mod_pow base exp 1 = 0 := by
  simp [mod_pow]

/-- C5: `next_byte` updates the state to `(1103515245 * state + 12345) mod 2^32`
and returns the top 8 bits (bits 31–24) of the new state; for seed 0 the first
updated state is 12345 and the first output byte is 0x00. -/
theorem lcg_next_byte_spec :
    (∀ seed : Nat,
      ((LCG.new seed).next_byte).2.next = (1103515245 * seed + 12345) % 2 ^ 32 ∧
      ((LCG.new seed).next_byte).1 = ((LCG.new seed).next_byte).2.next / 2 ^ 24) ∧
    ((LCG.new 0).next_byte).2.next = 12345 ∧ ((LCG.new 0).next_byte).1 = 0 := by
  refine ⟨fun seed => ⟨?_, ?_⟩, by decide, by decide⟩
  · show (1103515245 * seed + 12345) % 0x100000000 % 2 ^ 32 = _
    norm_num
  · show ((1103515245 * seed + 12345) % 0x100000000 % 2 ^ 32) >>> 24 % 2 ^ 8 = _
    rw [Nat.shiftRight_eq_div_pow]
    have h : (1103515245 * seed + 12345) % 0x100000000 % 2 ^ 32 < 2 ^ 32 := by
      exact Nat.mod_lt _ (by norm_num)
    have h2 : (1103515245 * seed + 12345) % 0x100000000 % 2 ^ 32 / 2 ^ 24 < 2 ^ 8 := by
      omega
    exact Nat.mod_eq_of_lt h2

/-- C3: XOR-decrypting with a freshly seeded generator the ciphertext produced
by XOR-encrypting message `M` with a separately constructed, identically seeded
generator yields exactly `M`. -/
theorem roundtrip_same_seed (S : Nat) (M : List Nat) :
    (decryptGo (LCG.new S) ((encryptGo (LCG.new S) M).1)).1 = M :=
  decryptGo_encryptGo (LCG.new S) M

/-- C8: ciphertext length equals plaintext length in both directions: a send
turn writes exactly `m.length` bytes and an `n`-byte receive turn recovers
exactly `n` plaintext bytes. -/
theorem cipher_length_eq (g : LCG) (m c : List Nat) :
    ((sendTurn g m).1).length = m.length ∧ ((recvTurn g c).1).length = c.length :=
  ⟨encryptGo_length g m, decryptGo_length g c⟩

/-- C4: a non-empty `n`-byte send turn advances the generator exactly `2n`
steps — the first `n` outputs are XORed into the ciphertext, the next `n` feed
the key display — and an `n`-byte receive turn likewise advances `2n` steps
with only the first `n` outputs XORed into the plaintext; hence a receiver
whose generator starts in the sender's state recovers the message exactly. -/
theorem turn_consumes_two_n (g : LCG) (m ct : List Nat) (hm : m ≠ []) (hc : ct ≠ []) :
    (sendTurn g m).1 = List.zipWith (fun a b => a ^^^ b) m ((keyDisplay g m.length).1) ∧
    (sendTurn g m).2 = g.steps (2 * m.length) ∧
    (recvTurn g ct).1 = List.zipWith (fun a b => a ^^^ b) ct ((keyDisplay g ct.length).1) ∧
    (recvTurn g ct).2 = g.steps (2 * ct.length) ∧
    (recvTurn g (sendTurn g m).1).1 = m := by
  refine ⟨?_, ?_, ?_, ?_, ?_⟩
  · simp [sendTurn, encryptGo_eq]
  · simp [sendTurn, encryptGo_eq, keyDisplay_state, encryptGo_length, two_mul,
      LCG.steps_add]
  · simp [recvTurn, decryptGo_eq]
  · simp [recvTurn, decryptGo_eq, keyDisplay_state, decryptGo_length, two_mul,
      LCG.steps_add]
  · simp [recvTurn, sendTurn, decryptGo_encryptGo]

/-- Witness for C4 at a concrete state and concrete one-byte messages. -/
theorem turn_consumes_two_n_witness :
    (([72] : List Nat) ≠ [] ∧ ([5] : List Nat) ≠ []) ∧
    ((sendTurn (LCG.new 0) [72]).1 =
        List.zipWith (fun a b => a ^^^ b) [72] ((keyDisplay (LCG.new 0) ([72] : List Nat).length).1) ∧
      (sendTurn (LCG.new 0) [72]).2 = (LCG.new 0).steps (2 * ([72] : List Nat).length) ∧
      (recvTurn (LCG.new 0) [5]).1 =
        List.zipWith (fun a b => a ^^^ b) [5] ((keyDisplay (LCG.new 0) ([5] : List Nat).length).1) ∧
      (recvTurn (LCG.new 0) [5]).2 = (LCG.new 0).steps (2 * ([5] : List Nat).length) ∧
      (recvTurn (LCG.new 0) (sendTurn (LCG.new 0) [72]).1).1 = [72]) :=
  ⟨⟨by decide, by decide⟩,
    turn_consumes_two_n (LCG.new 0) [72] [5] (by decide) (by decide)⟩

/-! ## Abstraction of `mod_pow` on powers of two

With `G = 2`, every value flowing through `mod_pow`'s wrapping arithmetic at
modulus `P` is either a power `2 ^ e` with `e ≤ 63` or `0`: a product
`2 ^ j * 2 ^ k` either stays below `2 ^ 64` (and below `P`, since
`2 ^ 63 < P`) or wraps to exactly `0`.  `addSat` is that saturating exponent
arithmetic; `goAbs` mirrors the `mod_pow` loop on abstract exponents. -/

/-- Saturating exponent addition: `none` abstracts the value 0. -/
def addSat : Option Nat → Option Nat → Option Nat
  | some j, some k => if j + k ≤ 63 then some (j + k) else none
  | _, _ => none

/-- Concretization: `some e` is the value `2 ^ e`, `none` is the value `0`. -/
def pow2v : Option Nat → Nat
  | some e => 2 ^ e
  | none => 0

/-- Well-formedness of an abstract value: a represented exponent is ≤ 63. -/
def okE : Option Nat → Prop
  | some e => e ≤ 63
  | none => True

/-- The `mod_pow` loop on abstract exponents. -/
def goAbs : Nat → Nat → Option Nat → Option Nat → Option Nat
  | 0, _, _, r => r
  | fuel + 1, exp, b, r =>
    if exp = 0 then r
    else goAbs fuel (exp / 2) (addSat b b) (if exp % 2 = 1 then addSat r b else r)

theorem two_pow_63_lt_P : 2 ^ 63 < P := by decide

theorem P_ne_one : P ≠ 1 := by decide

theorem addSat_none_left (y : Option Nat) : addSat none y = none := by
  cases y <;> rfl

theorem addSat_none_right (x : Option Nat) : addSat x none = none := by
  cases x <;> rfl

theorem addSat_ok (x y : Option Nat) : okE (addSat x y) := by
  cases x with
  | none => simp [addSat_none_left, okE]
  | some j =>
    cases y with
    | none => simp [addSat_none_right, okE]
    | some k =>
      simp only [addSat]
      split
      · simpa [okE]
      · simp [okE]

/-- One wrapping multiplication step at modulus `P`, on represented values. -/
theorem mulP (x y : Option Nat) (hx : okE x) (hy : okE y) :
    pow2v x * pow2v y % 2 ^ 64 % P = pow2v (addSat x y) := by
  cases x with
  | none => simp [pow2v, addSat_none_left]
  | some j =>
    cases y with
    | none => simp [pow2v, addSat_none_right]
    | some k =>
      simp only [okE] at hx hy
      simp only [pow2v, addSat, ← pow_add]
      by_cases h : j + k ≤ 63
      · have h1 : (2 : Nat) ^ (j + k) < 2 ^ 64 :=
          Nat.pow_lt_pow_right (by norm_num) (by omega)
        have h2 : (2 : Nat) ^ (j + k) < P := by
          have hle : (2 : Nat) ^ (j + k) ≤ 2 ^ 63 :=
            Nat.pow_le_pow_right (by norm_num) h
          exact lt_of_le_of_lt hle two_pow_63_lt_P
        rw [Nat.mod_eq_of_lt h1, Nat.mod_eq_of_lt h2]
        simp [h, pow2v]
      · have hdvd : (2 : Nat) ^ 64 ∣ 2 ^ (j + k) :=
          pow_dvd_pow 2 (by omega)
        obtain ⟨c, hc⟩ := hdvd
        rw [hc, Nat.mul_mod_right]
        simp [h, pow2v]

/-- Simulation: the concrete `mod_pow` loop at modulus `P` on represented
values follows the abstract loop exactly. -/
theorem modPowGo_sim (fuel : Nat) :
    ∀ (exp : Nat) (b r : Option Nat), okE b → okE r →
      modPowGo P fuel exp (pow2v b) (pow2v r) = pow2v (goAbs fuel exp b r) := by
  induction fuel with
  | zero => intro exp b r _ _; rfl
  | succ n ih =>
    intro exp b r hb hr
    by_cases hexp : exp = 0
    · simp [modPowGo, goAbs, hexp]
    · simp only [modPowGo, goAbs, hexp, if_false]
      by_cases hodd : exp % 2 = 1
      · rw [if_pos hodd, if_pos hodd, mulP b b hb hb, mulP r b hr hb]
        exact ih (exp / 2) (addSat b b) (addSat r b) (addSat_ok b b) (addSat_ok r b)
      · rw [if_neg hodd, if_neg hodd, mulP b b hb hb]
        exact ih (exp / 2) (addSat b b) r (addSat_ok b b) hr

theorem goAbs_exp_zero (fuel : Nat) (b r : Option Nat) : goAbs fuel 0 b r = r := by
  cases fuel <;> simp [goAbs]

theorem goAbs_r_none (fuel : Nat) :
    ∀ (exp : Nat) (b : Option Nat), goAbs fuel exp b none = none := by
  induction fuel with
  | zero => intro exp b; rfl
  | succ n ih =>
    intro exp b
    by_cases hexp : exp = 0
    · simp [goAbs, hexp]
    · simp only [goAbs, hexp, if_false, addSat_none_left]
      by_cases hodd : exp % 2 = 1 <;> simp [hodd, ih]

theorem goAbs_base_none (fuel : Nat) :
    ∀ (exp : Nat) (r : Option Nat), 0 < exp → exp < 2 ^ fuel →
      goAbs fuel exp none r = none := by
  induction fuel with
  | zero => intro exp r h1 h2; omega
  | succ n ih =>
    intro exp r h1 h2
    have hexp : exp ≠ 0 := by omega
    have hpow : 2 ^ (n + 1) = 2 * 2 ^ n := by rw [pow_succ]; ring
    simp only [goAbs, hexp, if_false, addSat_none_right]
    by_cases hq : exp / 2 = 0
    · have h3 : exp = 1 := by omega
      have hodd : exp % 2 = 1 := by omega
      simp [hq, hodd, addSat_none_right, goAbs_exp_zero]
    · have hrec : ∀ r2 : Option Nat, goAbs n (exp / 2) none r2 = none := by
        intro r2
        exact ih (exp / 2) r2 (by omega) (by omega)
      by_cases hodd : exp % 2 = 1 <;> simp [hodd, hrec, addSat_none_right]

theorem goAbs_some (fuel : Nat) :
    ∀ (exp e r0 : Nat), exp < 2 ^ fuel → e ≤ 63 → r0 ≤ 63 →
      goAbs fuel exp (some e) (some r0) =
        if r0 + e * exp ≤ 63 then some (r0 + e * exp) else none := by
  induction fuel with
  | zero =>
    intro exp e r0 hlt he hr0
    have h0 : exp = 0 := by omega
    subst h0
    simp [goAbs, hr0]
  | succ n ih =>
    intro exp e r0 hlt he hr0
    by_cases hexp : exp = 0
    · subst hexp; simp [goAbs_exp_zero, hr0]
    · have hpow : 2 ^ (n + 1) = 2 * 2 ^ n := by rw [pow_succ]; ring
      have hq : exp / 2 < 2 ^ n := by omega
      have hsplit : exp % 2 + 2 * (exp / 2) = exp := Nat.mod_add_div exp 2
      simp only [goAbs, hexp, if_false]
      by_cases hodd : exp % 2 = 1
      · -- odd exponent bit: the accumulator picks up `e`
        rw [if_pos hodd]
        simp only [addSat]
        by_cases hbb : e + e ≤ 63
        · rw [if_pos hbb]
          by_cases hre : r0 + e ≤ 63
          · rw [if_pos hre, ih (exp / 2) (e + e) (r0 + e) hq (by omega) hre]
            have key : r0 + e + (e + e) * (exp / 2) = r0 + e * exp := by
              have h2 : exp = 1 + 2 * (exp / 2) := by omega
              calc r0 + e + (e + e) * (exp / 2)
                  = r0 + e * (1 + 2 * (exp / 2)) := by ring
                _ = r0 + e * exp := by rw [← h2]
            rw [key]
          · rw [if_neg hre, goAbs_r_none]
            have hee : e ≤ e * exp := Nat.le_mul_of_pos_right e (by omega)
            rw [if_neg (by omega)]
        · rw [if_neg hbb]
          by_cases hq0 : exp / 2 = 0
          · have h3 : exp = 1 := by omega
            subst h3
            rw [hq0, goAbs_exp_zero]
            simp only [mul_one]
          · have hnone : ∀ r2 : Option Nat, goAbs n (exp / 2) none r2 = none :=
              fun r2 => goAbs_base_none n (exp / 2) r2 (by omega) hq
            rw [hnone]
            have h2e : 2 * e ≤ e * exp := by
              have hx : 2 ≤ exp := by omega
              calc 2 * e = e * 2 := by ring
                _ ≤ e * exp := Nat.mul_le_mul_left e hx
            rw [if_neg (by omega)]
      · -- even exponent bit: the accumulator is unchanged
        rw [if_neg hodd]
        have heven : exp % 2 = 0 := by omega
        simp only [addSat]
        by_cases hbb : e + e ≤ 63
        · rw [if_pos hbb, ih (exp / 2) (e + e) r0 hq (by omega) hr0]
          have key : r0 + (e + e) * (exp / 2) = r0 + e * exp := by
            have h2 : exp = 2 * (exp / 2) := by omega
            calc r0 + (e + e) * (exp / 2)
                = r0 + e * (2 * (exp / 2)) := by ring
              _ = r0 + e * exp := by rw [← h2]
          rw [key]
        · rw [if_neg hbb]
          have hq0 : exp / 2 ≠ 0 := by omega
          have hnone : ∀ r2 : Option Nat, goAbs n (exp / 2) none r2 = none :=
            fun r2 => goAbs_base_none n (exp / 2) r2 (by omega) hq
          rw [hnone]
          have h2e : 2 * e ≤ e * exp := by
            have hx : 2 ≤ exp := by omega
            calc 2 * e = e * 2 := by ring
              _ ≤ e * exp := Nat.mul_le_mul_left e hx
          rw [if_neg (by omega)]

/-- `mod_pow` with base `G = 2` at modulus `P`, for any 64-bit exponent:
`2 ^ a` while the exponent stays ≤ 63, and `0` beyond (the squaring chain
wraps `2 ^ 32 * 2 ^ 32` to zero). -/
theorem mod_pow_two_char (a : Nat) (ha : a < 2 ^ 64) :
    mod_pow 2 a P = if a ≤ 63 then 2 ^ a else 0 := by
  rw [mod_pow, if_neg P_ne_one]
  have hb : (2 : Nat) % P = pow2v (some 1) := by decide
  have hstep : modPowGo P 64 a (2 % P) 1 = pow2v (goAbs 64 a (some 1) (some 0)) := by
    rw [hb]
    exact modPowGo_sim 64 a (some 1) (some 0) (by simp [okE]) (by simp [okE])
  rw [hstep, goAbs_some 64 a 1 0 ha (by omega) (by omega)]
  simp only [Nat.zero_add, Nat.one_mul]
  by_cases h : a ≤ 63 <;> simp [h, pow2v]

/-- `mod_pow` with a power-of-two base `2 ^ e` (`e ≤ 63`) at modulus `P`. -/
theorem mod_pow_pow_two_char (e b : Nat) (he : e ≤ 63) (hb : b < 2 ^ 64) :
    mod_pow (2 ^ e) b P = if e * b ≤ 63 then 2 ^ (e * b) else 0 := by
  rw [mod_pow, if_neg P_ne_one]
  have hlt : (2 : Nat) ^ e < P := by
    have hle : (2 : Nat) ^ e ≤ 2 ^ 63 := Nat.pow_le_pow_right (by norm_num) he
    exact lt_of_le_of_lt hle two_pow_63_lt_P
  have hbase : (2 : Nat) ^ e % P = pow2v (some e) := by
    rw [Nat.mod_eq_of_lt hlt]; rfl
  have hstep : modPowGo P 64 b (2 ^ e % P) 1 = pow2v (goAbs 64 b (some e) (some 0)) := by
    rw [hbase]
    exact modPowGo_sim 64 b (some e) (some 0) (by simpa [okE]) (by simp [okE])
  rw [hstep, goAbs_some 64 b e 0 hb he (by omega)]
  simp only [Nat.zero_add]
  by_cases h : e * b ≤ 63 <;> simp [h, pow2v]

/-- `mod_pow` with base 0 at modulus `P`: 1 for exponent 0, else 0. -/
theorem mod_pow_zero_base_char (b : Nat) (hb : b < 2 ^ 64) :
    mod_pow 0 b P = if b = 0 then 1 else 0 := by
  rw [mod_pow, if_neg P_ne_one]
  have hstep : modPowGo P 64 b (0 % P) 1 = pow2v (goAbs 64 b none (some 0)) :=
    modPowGo_sim 64 b none (some 0) (by simp [okE]) (by simp [okE])
  rw [hstep]
  by_cases h : b = 0
  · subst h; simp [goAbs_exp_zero, pow2v]
  · rw [goAbs_base_none 64 b (some 0) (by omega) hb]
    simp [h, pow2v]

/-- C1: the DH agreement law holds for the implemented `mod_pow` (wrapping
64-bit products) at the program's fixed `G = 2` and `P`: for all 64-bit
private keys `a`, `b`, both peers derive the identical shared secret. -/
theorem dh_shared_secret_commutes (a b : Nat) (ha : a < 2 ^ 64) (hb : b < 2 ^ 64) :
    mod_pow (mod_pow G a P) b P = mod_pow (mod_pow G b P) a P := by
  have hG : G = 2 := rfl
  rw [hG, mod_pow_two_char a ha, mod_pow_two_char b hb]
  by_cases h1 : a ≤ 63 <;> by_cases h2 : b ≤ 63
  · rw [if_pos h1, if_pos h2, mod_pow_pow_two_char a b h1 hb,
      mod_pow_pow_two_char b a h2 ha, Nat.mul_comm]
  · rw [if_pos h1, if_neg h2, mod_pow_pow_two_char a b h1 hb,
      mod_pow_zero_base_char a ha]
    by_cases h3 : a = 0
    · subst h3; simp
    · have hba : b ≤ a * b := Nat.le_mul_of_pos_left b (by omega)
      rw [if_neg (by omega), if_neg h3]
  · rw [if_neg h1, if_pos h2, mod_pow_zero_base_char b hb,
      mod_pow_pow_two_char b a h2 ha]
    by_cases h3 : b = 0
    · subst h3; simp
    · have hba : a ≤ b * a := Nat.le_mul_of_pos_left a (by omega)
      rw [if_neg h3, if_neg (show ¬b * a ≤ 63 by omega)]
  · rw [if_neg h1, if_neg h2, mod_pow_zero_base_char a ha,
      mod_pow_zero_base_char b hb, if_neg (by omega), if_neg (by omega)]

/-- Witness for C1 at the concrete private keys 3 and 5. -/
theorem dh_shared_secret_commutes_witness :
    ((3 : Nat) < 2 ^ 64 ∧ (5 : Nat) < 2 ^ 64) ∧
    mod_pow (mod_pow G 3 P) 5 P = mod_pow (mod_pow G 5 P) 3 P :=
  ⟨⟨by norm_num, by norm_num⟩,
    dh_shared_secret_commutes 3 5 (by norm_num) (by norm_num)⟩

/-! ## C2: overflow of intermediate products in `mod_pow` -/

/-- C2 counterexample: with `G = 2` and the program's `P`, the 64-bit exponent
32 already drives an intermediate product out of 64 bits (the squaring
`2^32 * 2^32 = 2^64`), and at exponent 64 the wrapping result `0` differs
from exact modular exponentiation `2^64 mod P = 0x27805C1D6E4B380D`. -/
theorem mod_pow_overflow_counterexample :
    mod_pow_checked G 32 P = none ∧
    mod_pow G 64 P = 0 ∧
    G ^ 64 % P = 0x27805C1D6E4B380D ∧
    mod_pow G 64 P ≠ G ^ 64 % P := by
  refine ⟨by decide, by decide, by decide, by decide⟩

/-- C2 amended: intermediate products are computed in plain 64-bit wrapping
arithmetic, not double width; for `G = 2` and `P` they stay within 64 bits
only for exponents below 32, and on that range (and only with such a bound)
the implemented function agrees with exact modular exponentiation. -/
theorem mod_pow_no_overflow_below_32 (e : Nat) (he : e < 32) :
    mod_pow_checked G e P = some (mod_pow G e P) ∧ mod_pow G e P = G ^ e % P := by
  revert he
  revert e
  decide

/-- Witness for the amended C2 at exponent 5. -/
theorem mod_pow_no_overflow_below_32_witness :
    (5 : Nat) < 32 ∧
    (mod_pow_checked G 5 P = some (mod_pow G 5 P) ∧ mod_pow G 5 P = G ^ 5 % P) :=
  ⟨by decide, mod_pow_no_overflow_below_32 5 (by decide)⟩

/-! ## Local-input trimming (`input.trim()`) and the send-turn skip -/

/-- The Unicode White_Space code points tested by `char::is_whitespace`,
which `str::trim` uses on both ends of the line. -/
def rustIsWhitespace (c : Char) : Bool :=
  [0x09, 0x0A, 0x0B, 0x0C, 0x0D, 0x20, 0x85, 0xA0, 0x1680,
   0x2000, 0x2001, 0x2002, 0x2003, 0x2004, 0x2005, 0x2006, 0x2007,
   0x2008, 0x2009, 0x200A, 0x2028, 0x2029, 0x202F, 0x205F, 0x3000].contains c.toNat

/-- `str::trim`: removes whitespace from the FRONT and the BACK of the line. -/
def rustTrim (s : List Char) : List Char :=
  ((s.dropWhile rustIsWhitespace).reverse.dropWhile rustIsWhitespace).reverse

/-- Modelled from the spec: the claimed trimming behavior, "trailing
whitespace stripped" only, for comparison with the source's `rustTrim`. -/
def specTrimEnd (s : List Char) : List Char :=
  (s.reverse.dropWhile rustIsWhitespace).reverse

/-- UTF-8 encoding of the trimmed line, `input.trim().as_bytes()`. -/
def utf8Bytes (s : List Char) : List Nat :=
  (s.map (fun c => (String.utf8EncodeChar c).map UInt8.toNat)).flatten

/-- The send half of a session turn, after `read_line`: trim the line, skip
the turn when the result is empty, otherwise encrypt and write. Returns the
transport write (`none` = no write) and the generator after the turn. -/
def sendStep (g : LCG) (input : List Char) : Option (List Nat) × LCG :=
  let msg := utf8Bytes (rustTrim input)
  if msg = [] then (none, g)
  else
    let t := sendTurn g msg
    (some t.1, t.2)

theorem head?_dropWhile_not (p : Char → Bool) :
    ∀ (l : List Char) (a : Char), (l.dropWhile p).head? = some a → ¬p a = true := by
  intro l
  induction l with
  | nil => intro a h; simp [List.dropWhile] at h
  | cons x xs ih =>
    intro a h
    by_cases hp : p x
    · rw [List.dropWhile_cons, if_pos hp] at h
      exact ih a h
    · rw [List.dropWhile_cons, if_neg hp] at h
      simp at h
      subst h
      exact hp

theorem getLast?_dropWhile_of_ne_nil (p : Char → Bool) (l : List Char)
    (h : l.dropWhile p ≠ []) : (l.dropWhile p).getLast? = l.getLast? := by
  conv_rhs => rw [← List.takeWhile_append_dropWhile (p := p) (l := l)]
  rw [List.getLast?_append]
  cases hd : (l.dropWhile p).getLast? with
  | none => exact absurd (List.getLast?_eq_none_iff.mp hd) h
  | some a => rfl

/-- C6 counterexample: the line `" a"` (leading space, then content) is
trimmed by the code to `"a"` — the leading whitespace is NOT retained in the
encrypted message bytes, contradicting the claimed trailing-only stripping. -/
theorem trim_counterexample :
    rustTrim [' ', 'a'] = ['a'] ∧
    specTrimEnd [' ', 'a'] = [' ', 'a'] ∧
    rustTrim [' ', 'a'] ≠ specTrimEnd [' ', 'a'] ∧
    utf8Bytes (rustTrim [' ', 'a']) = [97] := by
  refine ⟨by decide, by decide, by decide, by decide⟩

/-- C6 amended: before the empty-check and encryption, exactly the leading
AND trailing whitespace of the line is stripped: the processed message is the
line minus a whitespace prefix and a whitespace suffix, and it neither starts
nor ends with whitespace. -/
theorem trim_strips_both_ends (s : List Char) :
    ∃ pre suf : List Char,
      s = pre ++ rustTrim s ++ suf ∧
      (∀ c ∈ pre, rustIsWhitespace c) ∧
      (∀ c ∈ suf, rustIsWhitespace c) ∧
      (∀ c, (rustTrim s).head? = some c → ¬rustIsWhitespace c) ∧
      (∀ c, (rustTrim s).getLast? = some c → ¬rustIsWhitespace c) := by
  refine ⟨s.takeWhile rustIsWhitespace,
    ((s.dropWhile rustIsWhitespace).reverse.takeWhile rustIsWhitespace).reverse,
    ?_, ?_, ?_, ?_, ?_⟩
  · conv_lhs => rw [← List.takeWhile_append_dropWhile (p := rustIsWhitespace) (l := s)]
    rw [List.append_assoc]
    congr 1
    calc s.dropWhile rustIsWhitespace
        = ((s.dropWhile rustIsWhitespace).reverse).reverse := by
          rw [List.reverse_reverse]
      _ = (((s.dropWhile rustIsWhitespace).reverse.takeWhile rustIsWhitespace) ++
            ((s.dropWhile rustIsWhitespace).reverse.dropWhile rustIsWhitespace)).reverse := by
          rw [List.takeWhile_append_dropWhile]
      _ = rustTrim s ++
            ((s.dropWhile rustIsWhitespace).reverse.takeWhile rustIsWhitespace).reverse := by
          rw [List.reverse_append]; rfl
  · exact fun c hc => List.mem_takeWhile_imp hc
  · intro c hc
    rw [List.mem_reverse] at hc
    exact List.mem_takeWhile_imp hc
  · intro c hc
    rw [rustTrim, List.head?_reverse] at hc
    have hne : (s.dropWhile rustIsWhitespace).reverse.dropWhile rustIsWhitespace ≠ [] := by
      intro h0
      rw [h0] at hc
      simp at hc
    rw [getLast?_dropWhile_of_ne_nil _ _ hne, List.getLast?_reverse] at hc
    exact head?_dropWhile_not rustIsWhitespace s c hc
  · intro c hc
    rw [rustTrim, List.getLast?_reverse] at hc
    exact head?_dropWhile_not rustIsWhitespace _ c hc

/-- C7: a session turn whose input line is empty after trimming is skipped:
no transport write happens, the generator is untouched, and its next output
byte is exactly what it was before the turn. -/
theorem empty_line_skips_turn (g : LCG) (input : List Char)
    (h : rustTrim input = []) :
    sendStep g input = (none, g) ∧ ((sendStep g input).2).next_byte = g.next_byte := by
  have hb : utf8Bytes (rustTrim input) = [] := by rw [h]; rfl
  constructor <;> simp [sendStep, hb]

/-- Witness for C7 at a whitespace-only input line. -/
theorem empty_line_skips_turn_witness :
    rustTrim [' '] = [] ∧
    (sendStep (LCG.new 7) [' '] = (none, LCG.new 7) ∧
      ((sendStep (LCG.new 7) [' ']).2).next_byte = (LCG.new 7).next_byte) :=
  ⟨by decide, empty_line_skips_turn (LCG.new 7) [' '] (by decide)⟩

/-! ## Receive-side display: `std::str::from_utf8(..).unwrap_or("")` -/

/-- UTF-8 continuation byte test: `0x80..=0xBF`. -/
def isUtf8Cont (b : Nat) : Bool := 0x80 ≤ b && b < 0xC0

/-- Strict UTF-8 validity as checked by `std::str::from_utf8`: rejects
continuation bytes out of place, overlong encodings (`0xC0`/`0xC1`,
`0xE0 0x80..0x9F`, `0xF0 0x80..0x8F`), surrogates (`0xED 0xA0..`), and code
points past U+10FFFF (`0xF4 0x90..`, lead bytes `0xF5..`). -/
def utf8IsValid : List Nat → Bool
  | [] => true
  | b :: rest =>
    if b < 0x80 then utf8IsValid rest
    else if b < 0xC2 then false
    else if b < 0xE0 then
      match rest with
      | b1 :: r => isUtf8Cont b1 && utf8IsValid r
      | [] => false
    else if b < 0xF0 then
      match rest with
      | b1 :: b2 :: r =>
        isUtf8Cont b1 && isUtf8Cont b2 &&
          !(b == 0xE0 && b1 < 0xA0) && !(b == 0xED && 0xA0 ≤ b1) &&
          utf8IsValid r
      | _ => false
    else if b < 0xF5 then
      match rest with
      | b1 :: b2 :: b3 :: r =>
        isUtf8Cont b1 && isUtf8Cont b2 && isUtf8Cont b3 &&
          !(b == 0xF0 && b1 < 0x90) && !(b == 0xF4 && 0x90 ≤ b1) &&
          utf8IsValid r
      | _ => false
    else false

/-- `std::str::from_utf8(bytes)`: `some` of the same bytes (a `&str` is a
view of the bytes) exactly when they are valid UTF-8, else `none` (`Err`). -/
def from_utf8 (bs : List Nat) : Option (List Nat) :=
  if utf8IsValid bs then some bs else none

/-- `std::str::from_utf8(&plaintext).unwrap_or("")`: the displayed string,
substituted by the empty string on a decoding fault. -/
def displayBytes (bs : List Nat) : List Nat :=
  (from_utf8 bs).getD []

/-- The receive half of a session turn: `read` returning 0 bytes breaks the
loop; otherwise the buffer is decrypted, displayed (empty display on decode
fault) and the loop continues. Returns (loop continues?, displayed string,
generator after the turn). -/
def recvStep (g : LCG) (buf : List Nat) : Bool × List Nat × LCG :=
  if buf.length = 0 then (false, [], g)
  else
    let t := recvTurn g buf
    (true, displayBytes t.1, t.2)

/-- C10: when the decrypted bytes of a received message are not valid UTF-8,
the displayed string is the empty string and the session loop still
continues: the fault is neither propagated nor terminates the loop. -/
theorem invalid_utf8_displays_empty (g : LCG) (buf : List Nat) (hne : buf ≠ [])
    (hbad : from_utf8 ((recvTurn g buf).1) = none) :
    (recvStep g buf).1 = true ∧ (recvStep g buf).2.1 = [] := by
  have hlen : ¬buf.length = 0 := by
    intro h0
    exact hne (List.length_eq_zero.mp h0)
  constructor
  · simp [recvStep, hlen]
  · simp [recvStep, hlen, displayBytes, hbad]

/-- Witness for C10: with seed 0 the first keystream byte is 0x00, so the
one-byte ciphertext `[0xFF]` decrypts to `[0xFF]`, which is invalid UTF-8. -/
theorem invalid_utf8_displays_empty_witness :
    (([255] : List Nat) ≠ [] ∧ from_utf8 ((recvTurn (LCG.new 0) [255]).1) = none) ∧
    ((recvStep (LCG.new 0) [255]).1 = true ∧ (recvStep (LCG.new 0) [255]).2.1 = []) :=
  ⟨⟨by decide, by decide⟩,
    invalid_utf8_displays_empty (LCG.new 0) [255] (by decide) (by decide)⟩
